import Mathlib

/-!
Verification of the selector-search engine of `finder` (src/finder.ts) against
its natural-language specification.

The source is shallowly embedded:

* `Knot`, paths, penalties, the renderer `selector`, the comparator `byPenalty`,
  the predicates `wordLike` / `attr` / `idName` / `className` / `tagName`, the
  fragment generator `tie`, the enumerators `combinations` / `search`, the
  oracle `unique`, the shorteners `optimize` / `permuations` (source spelling)
  and the driver `finder` are translated function by function from src/finder.ts.
* The document model and its query engine are external collaborators (spec section 6):
  an element carries the data the engine reads through the documented node
  accessors (tag, id, classList, attributes, sibling ordinals) plus its parent
  link, and the query capability `queryAll` together with the root-boundary
  test and `CSS.escape` is a `Ctx` value supplied by the host.
* JavaScript numbers holding the `Infinity` defaults (`timeoutMs`,
  `maxNumberOfPathChecks`) become `Option Nat` with `none` for `Infinity`.
* Wall-clock reads (`new Date()` at the two sites, finder.ts lines 92 and 411)
  are modeled by a `clock : Nat → Nat` giving the elapsed milliseconds observed
  at the k-th read; a read counter is threaded through the run.
* Thrown exceptions become `Except Err`; every uniqueness-oracle invocation is
  additionally logged as an `OracleCall`, recording the call site and, when the
  enclosing loop guards the call with a budget check, the elapsed time (and for
  the top-level loop the path-check count) observed by that guard.
-/

namespace Finder

/-- Selector fragment, source type `Knot`: a fragment text, its penalty, and the
ancestor level stamped when the fragment is placed into a path. The level is an
`Int` option because the renderer compares it against `level - 1` of a
JavaScript number. -/
structure Knot where
  name : String
  penalty : Int
  level : Option Int := none
deriving DecidableEq, Repr

/-- Path: ordered fragment list, index 0 describing the target node. -/
abbrev Path := List Knot

/-- Node data read through the external accessors (spec section 6): node type, tag,
id attribute, class list, attribute pairs, ordinal among element siblings
(`indexOf(element)`) and among same-tag element siblings
(`indexOf(element, tagName)`), each `none` when undefined. -/
structure ElData where
  nodeType : Nat
  tag : String
  idAttr : Option String
  classList : List String
  attrs : List (String × String)
  nthIndex : Option Nat
  nthTypeIndex : Option Nat
deriving DecidableEq

/-- Document element: accessor data plus the `parentElement` link. -/
inductive El where
  | mk (data : ElData) (parent : Option El)

def El.data : El → ElData
  | .mk d _ => d

def El.parent : El → Option El
  | .mk _ p => p

def elDecEq : (a : El) → (b : El) → Decidable (a = b)
  | .mk d p, .mk d' p' =>
    match decEq d d' with
    | .isFalse h => .isFalse (by intro hh; cases hh; exact h rfl)
    | .isTrue h =>
      match p, p' with
      | none, none => .isTrue (by cases h; rfl)
      | some a, some b =>
        match elDecEq a b with
        | .isTrue h2 => .isTrue (by cases h; cases h2; rfl)
        | .isFalse h2 => .isFalse (by intro hh; cases hh; exact h2 rfl)
      | none, some _ => .isFalse (by intro hh; cases hh)
      | some _, none => .isFalse (by intro hh; cases hh)

instance : DecidableEq El := elDecEq

/-- ASCII lower-casing of `String.prototype.toLowerCase` (tags handled by the
engine are ASCII; Lean's `Char.toLower` agrees there). -/
def lowerStr (s : String) : String := ⟨s.data.map Char.toLower⟩

/-- Errors thrown by the engine: non-element input (finder.ts line 68), a
candidate selector matching zero nodes (line 393), the timeout failure
(line 103), and exhaustion without a unique result (line 119). -/
inductive Err where
  | invalidInput
  | noMatch (sel : String)
  | timeout
  | notFound
deriving DecidableEq

/-- Call sites of the uniqueness oracle. -/
inductive Site where
  | top
  | opt
  | perm
  | fb
deriving DecidableEq

/-- Log entry for one uniqueness-oracle invocation: the call site, the rendered
selector queried, the elapsed-time reading of the budget check immediately
guarding the call in the enclosing loop (`none` when that loop performs no such
check), and the path-check count seen by that guard (top-level loop only). -/
structure OracleCall where
  site : Site
  sel : String
  guard : Option Nat := none
  cnt : Option Nat := none
deriving DecidableEq

instance exceptDecEq {ε α : Type} [DecidableEq ε] [DecidableEq α] :
    DecidableEq (Except ε α)
  | .error e, .error e' =>
    match decEq e e' with
    | .isTrue h => .isTrue (by cases h; rfl)
    | .isFalse h => .isFalse (by intro hh; cases hh; exact h rfl)
  | .ok a, .ok a' =>
    match decEq a a' with
    | .isTrue h => .isTrue (by cases h; rfl)
    | .isFalse h => .isFalse (by intro hh; cases hh; exact h rfl)
  | .error _, .ok _ => .isFalse (by intro hh; cases hh)
  | .ok _, .error _ => .isFalse (by intro hh; cases hh)

/-- External collaborators bundled: the query engine already scoped at the
`rootDocument` computed by `findRootDocument` (finder.ts line 87), the identity
test `current === rootDocument` used as walk boundary, and `CSS.escape`. -/
structure Ctx where
  queryAll : String → List El
  stops : El → Bool
  esc : String → String

/-- Configuration, source type `Options`, with all defaults filled in; `none`
stands for the `Infinity` defaults of `timeoutMs` / `maxNumberOfPathChecks`. -/
structure Options where
  idName : String → Bool
  className : String → Bool
  tagName : String → Bool
  attr : String → String → Bool
  timeoutMs : Option Nat
  seedMinLength : Nat
  optimizedMinLength : Nat
  maxNumberOfPathChecks : Option Nat

/-- Test `elapsedTimeMs > config.timeoutMs`; false for the `Infinity` value. -/
def timeExceeded (cfg : Options) (elapsed : Nat) : Bool :=
  match cfg.timeoutMs with
  | none => false
  | some m => elapsed > m

/-- Test `count >= config.maxNumberOfPathChecks`; false for `Infinity`. -/
def countExceeded (cfg : Options) (count : Nat) : Bool :=
  match cfg.maxNumberOfPathChecks with
  | none => false
  | some m => count ≥ m

/-- Vowels of the consonant-run test `/[^aeiou]{4,}/i`. -/
def isVowel (c : Char) : Bool :=
  c = 'a' || c = 'e' || c = 'i' || c = 'o' || c = 'u' ||
  c = 'A' || c = 'E' || c = 'I' || c = 'O' || c = 'U'

/-- Test for four consecutive non-vowel characters, `/[^aeiou]{4,}/i.test`. -/
def hasConsRun4 : List Char → Bool
  | a :: b :: c :: d :: rest =>
    (!isVowel a && !isVowel b && !isVowel c && !isVowel d) ||
      hasConsRun4 (b :: c :: d :: rest)
  | _ => false

/-- Character class `[a-z\-]` with the `i` flag: ASCII letter or hyphen. -/
def isWordChar (c : Char) : Bool := c.isAlpha || c = '-'

/-- Delimiter class of the split regex (hyphen or `[A-Z]`). -/
def isWordDelim (c : Char) : Bool := c = '-' || (c.isUpper)

/-- Split a character list at every delimiter, keeping empty pieces, exactly as
`String.prototype.split` with a single-character-match regex. -/
def splitDelims : List Char → List (List Char)
  | [] => [[]]
  | c :: rest =>
    let r := splitDelims rest
    if isWordDelim c then [] :: r
    else
      match r with
      | [] => [[c]]
      | w :: ws => (c :: w) :: ws

/-- Per-word test inside `wordLike`: length above two and no run of four
consonants. -/
def wordOk (w : List Char) : Bool :=
  decide (w.length > 2) && !hasConsRun4 w

/-- Source `wordLike` (finder.ts lines 201-215): the whole string matches
`/^[a-z\-]{3,}$/i`, and every piece obtained by splitting at hyphens and
capitals is longer than two characters with no four-consonant run. -/
def wordLike (name : String) : Bool :=
  let cs := name.data
  if decide (cs.length ≥ 3) && cs.all isWordChar then
    (splitDelims cs).all wordOk
  else false

/-- Closed allow-list of attribute names (finder.ts line 11). -/
def acceptedAttrNames : List String := ["role", "name", "aria-label", "rel", "href"]

/-- Test `value.startsWith('#')` on character data. -/
def startsHash (s : String) : Bool :=
  match s.data with
  | '#' :: _ => true
  | _ => false

/-- Test `name.startsWith('data-')` on character data. -/
def startsData (s : String) : Bool :=
  match s.data with
  | 'd' :: 'a' :: 't' :: 'a' :: '-' :: _ => true
  | _ => false

/-- Source `attr` predicate (finder.ts lines 14-22). -/
def attr (name value : String) : Bool :=
  let nameIsOk := acceptedAttrNames.contains name || (startsData name && wordLike name)
  let valueIsOk := (wordLike value && decide (value.data.length < 100)) ||
    (startsHash value && wordLike ⟨value.data.drop 1⟩)
  nameIsOk && valueIsOk

/-- Source `idName` predicate (finder.ts line 25). -/
def idName (name : String) : Bool := wordLike name

/-- Source `className` predicate (finder.ts line 30). -/
def className (name : String) : Bool := wordLike name

/-- Source `tagName` predicate (finder.ts line 35). -/
def tagName (_name : String) : Bool := true

/-- Source defaults (finder.ts lines 73-83) for the predicate and budget
fields; the root / rootDocument defaults live in `Ctx`. -/
def defaults : Options :=
  { idName := idName
    className := className
    tagName := tagName
    attr := attr
    timeoutMs := some 1000
    seedMinLength := 3
    optimizedMinLength := 2
    maxNumberOfPathChecks := none }

/-- Source `penalty` (finder.ts lines 293-295): sum of fragment penalties. -/
def penalty (path : Path) : Int :=
  (path.map (fun node => node.penalty)).foldl (· + ·) 0

/-- Source `byPenalty` comparator (finder.ts lines 297-299). -/
def byPenalty (a b : Path) : Int := penalty a - penalty b

/-- Stable insertion of a path into a run already sorted by `byPenalty`,
placing it after earlier-listed paths that compare equal. -/
def insortPath (x : Path) : List Path → List Path
  | [] => [x]
  | y :: r => if penalty x ≤ penalty y then x :: y :: r else y :: insortPath x r

/-- Stable ascending sort by the `byPenalty` comparator, the behavior of
`paths.sort(byPenalty)` (JavaScript array sort is stable). -/
def sortPaths : List Path → List Path
  | [] => []
  | x :: r => insortPath x (sortPaths r)

/-- Source `selector` renderer (finder.ts lines 278-291), rendering from
fragment 0 outward; `node` is the previous fragment. An empty path is rendered
as the empty string (the source would fault; the engine never renders one). -/
def selectorGo (node : Knot) (query : String) : Path → String
  | [] => query
  | k :: rest =>
    selectorGo k
      (if node.level = some (k.level.getD 0 - 1) then k.name ++ " > " ++ query
        else k.name ++ " " ++ query) rest

/-- Source `selector` entry point. -/
def selector : Path → String
  | [] => ""
  | node :: rest => selectorGo node node.name rest

/-- Source `nthChild` (finder.ts lines 350-355). -/
def nthChild (tag : String) (index : Nat) : String :=
  if tag = "html" then "html"
  else tag ++ ":nth-child(" ++ toString index ++ ")"

/-- Source `nthOfType` (finder.ts lines 357-362). -/
def nthOfType (tag : String) (index : Nat) : String :=
  if tag = "html" then "html"
  else tag ++ ":nth-of-type(" ++ toString index ++ ")"

/-- Source `tie` fragment generator (finder.ts lines 217-276): id fragment for
a present, non-empty, accepted id; one fragment per accepted class; one per
accepted non-class attribute; bare tag and tag nth-of-type fragments for an
accepted tag; and the nth-child fragment when the element has an ordinal. The
sibling traversals of `indexOf` are the external `siblingIndex` accessors
stored on the element. -/
def tie (ctx : Ctx) (cfg : Options) (e : El) : List Knot :=
  let d := e.data
  let idKnots : List Knot :=
    match d.idAttr with
    | none => []
    | some s => if s ≠ "" && cfg.idName s then [{ name := "#" ++ ctx.esc s, penalty := 0 }] else []
  let classKnots : List Knot :=
    (d.classList.filter cfg.className).map
      (fun n => { name := "." ++ ctx.esc n, penalty := 1 })
  let attrKnots : List Knot :=
    (d.attrs.filter (fun a => a.1 ≠ "class" && cfg.attr a.1 a.2)).map
      (fun a => { name := "[" ++ ctx.esc a.1 ++ "=\"" ++ ctx.esc a.2 ++ "\"]", penalty := 2 })
  let tag := lowerStr d.tag
  let tagKnots : List Knot :=
    if cfg.tagName tag then
      [{ name := tag, penalty := 5 }] ++
        (match d.nthTypeIndex with
          | none => []
          | some idx => [{ name := nthOfType tag idx, penalty := 10 }])
    else []
  let nthKnots : List Knot :=
    match d.nthIndex with
    | none => []
    | some nth => [{ name := nthChild tag nth, penalty := 50 }]
  idKnots ++ classKnots ++ attrKnots ++ tagKnots ++ nthKnots

/-- Source `combinations` (finder.ts lines 364-372): choose one fragment from
each stack level, the first stack level iterated outermost. -/
def combinations (stack : List (List Knot)) (path : Path) : List Path :=
  match stack with
  | [] => [path]
  | level :: rest => level.flatMap (fun node => combinations rest (path ++ [node]))

/-- Stamp `node.level = i` over a freshly generated level (finder.ts
lines 176-178). -/
def stampLevel (i : Nat) (level : List Knot) : List Knot :=
  level.map (fun k => { k with level := some (i : Int) })

/-- Source `search` walk body (finder.ts lines 174-192): per ancestor, stamp
and push the fragment level, extend the pending combinations, and once the
depth counter has reached `seedMinLength` flush the pending list sorted by
penalty, continuing with an empty pending list. The trailing flush of
lines 194-198 happens when the walk leaves the loop. -/
def searchGo (ctx : Ctx) (cfg : Options) :
    El → List (List Knot) → List Path → Nat → List Path
  | .mk d par, stack, pending, i =>
    if ctx.stops (.mk d par) then sortPaths pending
    else
      let level := stampLevel i (tie ctx cfg (.mk d par))
      let stack' := stack ++ [level]
      let i' := i + 1
      let pending' := pending ++ combinations stack' []
      if i' ≥ cfg.seedMinLength then
        sortPaths pending' ++
          (match par with
            | none => sortPaths []
            | some p => searchGo ctx cfg p stack' [] i')
      else
        match par with
        | none => sortPaths pending'
        | some p => searchGo ctx cfg p stack' pending' i'

/-- Source `search` generator (finder.ts lines 165-199) as the list of all
yielded candidates; the walk starts at `input[0]`. -/
def search (ctx : Ctx) (cfg : Options) (input : List El) : List Path :=
  match input with
  | [] => []
  | e :: _ => searchGo ctx cfg e [] [] 0

/-- Source `unique` oracle (finder.ts lines 384-400): render the path, query
the scope, fail when nothing matches, otherwise compare match-list length with
the target-list length and test containment of every target. -/
def unique (ctx : Ctx) (elementsToMatch : List El) (path : Path) : Except Err Bool :=
  let css := selector path
  let foundElements := ctx.queryAll css
  if foundElements.length = 0 then .error (.noMatch css)
  else
    .ok (foundElements.length == elementsToMatch.length &&
      elementsToMatch.all (fun e => foundElements.contains e))

/-- Source `fallback` walk (finder.ts lines 327-344): collect one nth-of-type
fragment per ancestor, failing when an ordinal is undefined. The source tags
these fragments with penalty `NaN`; the value is never read (a fallback path is
never penalty-compared), so it is rendered as `0` here. -/
def fallbackGo (ctx : Ctx) : El → Nat → Option Path
  | .mk d par, i =>
    if ctx.stops (.mk d par) then some []
    else
      let tag := lowerStr d.tag
      match d.nthTypeIndex with
      | none => none
      | some idx =>
        let knot : Knot := { name := nthOfType tag idx, penalty := 0, level := some (i : Int) }
        match par with
        | none => some [knot]
        | some p => (fallbackGo ctx p (i + 1)).map (fun rest => knot :: rest)

/-- Path built by `fallback` before its uniqueness test; `none` both for an
undefined ordinal and for empty input (the source would fault on the latter;
`finder` never reaches it). -/
def fallbackPath (ctx : Ctx) (input : List El) : Option Path :=
  match input with
  | [] => none
  | e :: _ => fallbackGo ctx e 0

/-- Result of a logged, clocked computation: value, next clock-read index, and
the oracle calls performed, in order. -/
abbrev Res (α : Type) := Except Err (α × Nat × List OracleCall)

/-- Source `optimize` (finder.ts lines 402-423), entry and removal loop merged:
the guard of line 409 is re-tested together with the loop bound, which is sound
because the path is fixed across loop iterations. Before each removal attempt
the clock is read (line 411) and the shared time budget is re-checked; a
removal that the oracle confirms unique is yielded and recursively optimized.
Logged calls carry the guard's elapsed reading. -/
def optimizeGo (ctx : Ctx) (cfg : Options) (clock : Nat → Nat) (input : List El) :
    Path → Nat → Nat → Res (List Path)
  | path, i, t =>
    if h : path.length > 2 ∧ path.length > cfg.optimizedMinLength ∧ i + 1 < path.length then
      if timeExceeded cfg (clock t) then .ok ([], t + 1, [])
      else
        match unique ctx input (path.eraseIdx i) with
        | .error er => .error er
        | .ok true =>
          match optimizeGo ctx cfg clock input (path.eraseIdx i) 1 (t + 1) with
          | .error er => .error er
          | .ok (ys, t2, l2) =>
            match optimizeGo ctx cfg clock input path (i + 1) t2 with
            | .error er => .error er
            | .ok (ys3, t3, l3) =>
              .ok (path.eraseIdx i :: (ys ++ ys3), t3,
                (⟨.opt, selector (path.eraseIdx i), some (clock t), none⟩ :: (l2 ++ l3)))
        | .ok false =>
          match optimizeGo ctx cfg clock input path (i + 1) (t + 1) with
          | .error er => .error er
          | .ok (ys3, t3, l3) =>
            .ok (ys3, t3, (⟨.opt, selector (path.eraseIdx i), some (clock t), none⟩ :: l3))
    else .ok ([], t, [])
termination_by path i _ => (path.length, path.length - i)
decreasing_by
  · have : (path.eraseIdx i).length = path.length - 1 := by
      rw [List.length_eraseIdx]
      simp only [if_pos (by omega : i < path.length)]
    simp only [this]
    left
    omega
  · right
    omega
  · right
    omega

/-- Source `optimize` entry (loop counter starting at 1, finder.ts line 410). -/
def optimize (ctx : Ctx) (cfg : Options) (clock : Nat → Nat) (input : List El)
    (path : Path) (t : Nat) : Res (List Path) :=
  optimizeGo ctx cfg clock input path 1 t

/-- Source `permuations` (finder.ts lines 425-455; source spelling), entry and
removal loop merged as for `optimize`: while the path is longer than
`maximumLength`, recurse into every interior single-fragment removal; when the
loop is exhausted, self-yield if the penalty beats `maximumScore` and the
oracle confirms uniqueness. The function performs no clock reads, so its
logged calls carry no guard reading. -/
def permGo (ctx : Ctx) (input : List El) (maximumLength : Nat) (maximumScore : Int) :
    Path → Nat → Except Err (List Path × List OracleCall)
  | path, i =>
    if h : path.length > maximumLength ∧ i + 1 < path.length then
      match permGo ctx input maximumLength maximumScore (path.eraseIdx i) 1 with
      | .error er => .error er
      | .ok (ys, l1) =>
        match permGo ctx input maximumLength maximumScore path (i + 1) with
        | .error er => .error er
        | .ok (ys2, l2) => .ok (ys ++ ys2, l1 ++ l2)
    else
      if penalty path < maximumScore then
        match unique ctx input path with
        | .error er => .error er
        | .ok true => .ok ([path], [{ site := .perm, sel := selector path }])
        | .ok false => .ok ([], [{ site := .perm, sel := selector path }])
      else .ok ([], [])
termination_by path i => (path.length, path.length - i)
decreasing_by
  · have : (path.eraseIdx i).length = path.length - 1 := by
      rw [List.length_eraseIdx]
      simp only [if_pos (by omega : i < path.length)]
    simp only [this]
    left
    omega
  · right
    omega

/-- Source `permuations` entry. -/
def permuations (ctx : Ctx) (input : List El) (maximumLength : Nat)
    (maximumScore : Int) (path : Path) : Except Err (List Path × List OracleCall) :=
  permGo ctx input maximumLength maximumScore path 1

/-- Outcome of the candidate-consumption loop: either fall through to the
optimization phase with the accumulated `foundPaths`, or return a rendered
fallback selector immediately (finder.ts line 107). -/
inductive LoopOut where
  | proceed (foundPaths : List Path)
  | immediate (sel : String)
deriving DecidableEq

/-- Candidate-consumption loop of `finder` (finder.ts lines 91-116): per
candidate, read the clock and test the two work budgets; on an exceeded budget
either break with the paths found so far or try the fallback; otherwise count
the check, consult the oracle, and accumulate unique candidates, stopping at
the first hit for single-target input. -/
def consume (ctx : Ctx) (cfg : Options) (clock : Nat → Nat) (input : List El) :
    List Path → List Path → Nat → Nat → Res LoopOut
  | [], foundPaths, _, t => .ok (.proceed foundPaths, t, [])
  | candidate :: rest, foundPaths, count, t =>
    if timeExceeded cfg (clock t) || countExceeded cfg count then
      if foundPaths.length ≠ 0 then .ok (.proceed foundPaths, t + 1, [])
      else
        match fallbackPath ctx input with
        | none => .error .timeout
        | some fPath =>
          match unique ctx input fPath with
          | .error er => .error er
          | .ok true =>
            .ok (.immediate (selector fPath), t + 1, [{ site := .fb, sel := selector fPath }])
          | .ok false => .error .timeout
    else
      match unique ctx input candidate with
      | .error er => .error er
      | .ok u =>
        if u then
          if input.length == 1 then
            .ok (.proceed (foundPaths ++ [candidate]), t + 1,
              [⟨.top, selector candidate, some (clock t), some count⟩])
          else
            match consume ctx cfg clock input rest (foundPaths ++ [candidate]) (count + 1) (t + 1) with
            | .error er => .error er
            | .ok (out, t2, l) =>
              .ok (out, t2, ⟨.top, selector candidate, some (clock t), some count⟩ :: l)
        else
          match consume ctx cfg clock input rest foundPaths (count + 1) (t + 1) with
          | .error er => .error er
          | .ok (out, t2, l) =>
            .ok (out, t2, ⟨.top, selector candidate, some (clock t), some count⟩ :: l)

/-- Sequence `paths.map((p) => [...permuations({path: p, ...})]).flat()`
(finder.ts lines 136-146), concatenating yields and logs in program order. -/
def permsOver (ctx : Ctx) (input : List El) (maximumLength : Nat) (maximumScore : Int) :
    List Path → Except Err (List Path × List OracleCall)
  | [] => .ok ([], [])
  | p :: rest =>
    match permuations ctx input maximumLength maximumScore p with
    | .error er => .error er
    | .ok (ys, l1) =>
      match permsOver ctx input maximumLength maximumScore rest with
      | .error er => .error er
      | .ok (ys2, l2) => .ok (ys ++ ys2, l1 ++ l2)

/-- Sequence `paths.map((p) => [p, ...optimize(p, ...)]).flat()` (finder.ts
lines 148-153). -/
def optimizeOver (ctx : Ctx) (cfg : Options) (clock : Nat → Nat) (input : List El) :
    List Path → Nat → Res (List Path)
  | [], t => .ok ([], t, [])
  | p :: rest, t =>
    match optimize ctx cfg clock input p t with
    | .error er => .error er
    | .ok (ys, t1, l1) =>
      match optimizeOver ctx cfg clock input rest t1 with
      | .error er => .error er
      | .ok (ys2, t2, l2) => .ok ((p :: ys) ++ ys2, t2, l1 ++ l2)

/-- Head of a nonempty path list; the default is never used where the source
indexes `[0]` after establishing nonemptiness. -/
def headPath (l : List Path) : Path := l.headD []

/-- Source `finder` (finder.ts lines 62-163). The returned value is the
selector string together with the final clock-read index and the oracle-call
log. Array wrapping of a single element is modeled by always passing a list. -/
def finder (ctx : Ctx) (cfg : Options) (clock : Nat → Nat) (input : List El) :
    Except Err (String × Nat × List OracleCall) :=
  if input.any (fun e => e.data.nodeType ≠ 1) then .error .invalidInput
  else if input.all (fun e => lowerStr e.data.tag == "html") then .ok ("html", 0, [])
  else
    let candidates := search ctx cfg input
    match consume ctx cfg clock input candidates [] 0 0 with
    | .error er => .error er
    | .ok (.immediate s, t, log) => .ok (s, t, log)
    | .ok (.proceed foundPaths, t, log) =>
      if foundPaths.length = 0 then .error .notFound
      else
        let sorted := sortPaths foundPaths
        let firstPath := headPath sorted
        let otherPaths := sorted.tail
        match optimize ctx cfg clock input firstPath t with
        | .error er => .error er
        | .ok (optYs, t1, log1) =>
          let initialOptimized := sortPaths (firstPath :: optYs)
          if input.length > 1 then
            let firstOptimizedPath := headPath initialOptimized
            let maxPenaltyLength := penalty firstOptimizedPath
            let maxLength := firstOptimizedPath.length
            match permsOver ctx input maxLength maxPenaltyLength otherPaths with
            | .error er => .error er
            | .ok (otherPermutations, log2) =>
              match optimizeOver ctx cfg clock input otherPermutations t1 with
              | .error er => .error er
              | .ok (optimized0, t2, log3) =>
                let optimized := sortPaths (optimized0 ++ [firstOptimizedPath])
                match optimized with
                | o :: _ => .ok (selector o, t2, log ++ log1 ++ log2 ++ log3)
                | [] => .ok (selector (headPath sorted), t2, log ++ log1 ++ log2 ++ log3)
          else
            match initialOptimized with
            | o :: _ => .ok (selector o, t1, log ++ log1)
            | [] => .ok (selector (headPath sorted), t1, log ++ log1)

/-! Claim-side descriptions and concrete witness data used by the claim theorems. -/

/-- Concrete element used by witnesses. -/
def wEl : El := .mk ⟨1, "div", none, [], [], none, none⟩ none

/-- Scope in which every selector matches exactly `[wEl]`. -/
def wCtx : Ctx := { queryAll := fun _ => [wEl], stops := fun _ => false, esc := id }

def kA : Knot := { name := "a", penalty := 0, level := some 0 }

def kB : Knot := { name := "b", penalty := 5, level := some 1 }

def kC : Knot := { name := "c", penalty := 0, level := some 2 }

/-- Scope in which the selector `c a` matches exactly the one element `wEl`. -/
def cxCA : Ctx :=
  { queryAll := fun s => if s = "c a" then [wEl] else []
    stops := fun _ => false
    esc := id }

/-- Scope in which the selector `a` matches exactly the one element `wEl`. -/
def cxA : Ctx :=
  { queryAll := fun s => if s = "a" then [wEl] else []
    stops := fun _ => false
    esc := id }

/-- Cartesian product of one fragment per level with the FIRST level varying
fastest, the enumeration order asserted by claim C4 as stated. -/
def cartFirstFastest : List (List Knot) → List Path
  | [] => [[]]
  | lvl :: rest => (cartFirstFastest rest).flatMap (fun tail => lvl.map (fun x => x :: tail))

/-- Cartesian product of one fragment per level with the LAST level varying
fastest (equivalently, the first level varying slowest), the amended
enumeration order. -/
def cartLastFastest : List (List Knot) → List Path
  | [] => [[]]
  | lvl :: rest => lvl.flatMap (fun x => (cartLastFastest rest).map (fun tail => x :: tail))

/-- One fragment per ancestor level with fragment `j` carrying level `j`, the
shape claim C9 asserts of every search candidate. -/
def consecLevels (p : Path) : Prop :=
  ∀ j (h : j < p.length), (p.get ⟨j, h⟩).level = some (j : Int)

/-- Child-combinator-only renderer: every adjacent pair joined with the child
combinator, the rendering claim C9 asserts for search candidates. -/
def selectorChainedGo (query : String) : Path → String
  | [] => query
  | k :: rest => selectorChainedGo (k.name ++ " > " ++ query) rest

/-- Entry point of the child-only renderer. -/
def selectorChained : Path → String
  | [] => ""
  | k :: rest => selectorChainedGo k.name rest

/-- Element with an id and a parent, used by the claim C9 witness. -/
def wElB : El := .mk ⟨1, "p", some "app", [], [], none, none⟩ (some wEl)

/-- Ancestor fragment levels as claim C4 words them: walking from the target
element toward the root boundary, each ancestor's admissible fragment set
stamped with its depth. -/
def levelsOf (ctx : Ctx) (cfg : Options) : El → Nat → List (List Knot)
  | .mk d par, i =>
    if ctx.stops (.mk d par) then []
    else
      stampLevel i (tie ctx cfg (.mk d par)) ::
        (match par with
          | none => []
          | some p => levelsOf ctx cfg p (i + 1))

/-- Search as amended claim C4 words it: after each new ancestor level is
pushed, the full Cartesian product of one fragment chosen from each level seen
so far — enumerated depth-first with the LAST level varying fastest — is
appended to the pending list; once the depth counter reaches `seedMinLength`
the pending list is sorted by ascending score and yielded, the pending list is
cleared, and yielding resumes after every further level increment (with a
final sorted flush when the walk ends). -/
def specGo (seedMin : Nat) : List (List Knot) → List (List Knot) → List Path → Nat → List Path
  | _, [], pending, _ => sortPaths pending
  | done, lvl :: todo, pending, i =>
    if i + 1 ≥ seedMin then
      sortPaths (pending ++ cartLastFastest (done ++ [lvl])) ++
        specGo seedMin (done ++ [lvl]) todo [] (i + 1)
    else
      specGo seedMin (done ++ [lvl]) todo (pending ++ cartLastFastest (done ++ [lvl])) (i + 1)

/-- Entry point of the claim-C4 search description. -/
def searchClaimed (ctx : Ctx) (cfg : Options) (input : List El) : List Path :=
  match input with
  | [] => []
  | e :: _ => specGo cfg.seedMinLength [] (levelsOf ctx cfg e 0) [] 0

/-- Scope in which the selector `#app` matches exactly the element `wElB`. -/
def cxApp : Ctx :=
  { queryAll := fun s => if s = "#app" then [wElB] else []
    stops := fun _ => false
    esc := id }

/-- Renderer as claim C7 words it: starting from fragment 0's text, each
subsequent fragment is prepended with the child combinator exactly when its
level is one greater than the previous fragment's level, and with the
whitespace descendant combinator otherwise. -/
def selectorClaimGo (prevLevel : Int) (query : String) : Path → String
  | [] => query
  | k :: rest =>
    selectorClaimGo (k.level.getD 0)
      (if k.level.getD 0 = prevLevel + 1 then k.name ++ " > " ++ query
        else k.name ++ " " ++ query) rest

/-- Entry point of the claim-C7 renderer. -/
def selectorClaim : Path → String
  | [] => ""
  | k :: rest => selectorClaimGo (k.level.getD 0) k.name rest

/-- Attribute acceptance exactly as claim C8 words it: the name is in the
closed allow-list or begins with `data-` (with no further condition on the
name), and the value is word-like and under 100 characters or begins with `#`
with a word-like remainder. -/
def attrClaimed (name value : String) : Bool :=
  (acceptedAttrNames.contains name || startsData name) &&
    ((wordLike value && decide (value.data.length < 100)) ||
      (startsHash value && wordLike ⟨value.data.drop 1⟩))

/-! Helper lemmas shared by the claim theorems. -/

theorem insortPath_perm (x : Path) (l : List Path) :
    (insortPath x l).Perm (x :: l) := by
  induction l with
  | nil => simp [insortPath]
  | cons y r ih =>
    simp only [insortPath]
    split
    · exact List.Perm.refl _
    · exact (ih.cons y).trans (List.Perm.swap x y r)

theorem sortPaths_perm (l : List Path) : (sortPaths l).Perm l := by
  induction l with
  | nil => simp [sortPaths]
  | cons x r ih => exact (insortPath_perm x _).trans (ih.cons x)

theorem mem_sortPaths {p : Path} {l : List Path} : p ∈ sortPaths l ↔ p ∈ l :=
  (sortPaths_perm l).mem_iff

theorem headPath_mem {l : List Path} (h : l ≠ []) : headPath l ∈ l := by
  cases l with
  | nil => exact absurd rfl h
  | cons a r => simp [headPath]

theorem sortPaths_eq_nil_iff {l : List Path} : sortPaths l = [] ↔ l = [] := by
  constructor
  · intro h
    have := sortPaths_perm l
    rw [h] at this
    exact this.symm.eq_nil
  · intro h
    simp [h, sortPaths]

/-- Characterization of a positive oracle answer: the rendered selector matches
a nonempty set whose size equals the target count and which contains every
target. -/
theorem unique_ok_true_iff {ctx : Ctx} {ts : List El} {p : Path} :
    unique ctx ts p = .ok true ↔
      (ctx.queryAll (selector p) ≠ [] ∧
        (ctx.queryAll (selector p)).length = ts.length ∧
        ∀ e ∈ ts, e ∈ ctx.queryAll (selector p)) := by
  simp only [unique]
  split
  · rename_i hzero
    constructor
    · intro h
      cases h
    · intro ⟨hne, _, _⟩
      exact absurd (List.length_eq_zero.mp hzero) hne
  · rename_i hzero
    rw [List.length_eq_zero] at hzero
    simp only [Except.ok.injEq, Bool.and_eq_true, beq_iff_eq, List.all_eq_true,
      List.contains, List.elem_iff]
    constructor
    · intro ⟨h1, h2⟩
      exact ⟨hzero, h1, fun e he => h2 e he⟩
    · intro ⟨_, h1, h2⟩
      exact ⟨h1, fun e he => h2 e he⟩

/-- Characterization of the oracle's failure: exactly the zero-match case. -/
theorem unique_error_iff {ctx : Ctx} {ts : List El} {p : Path} {er : Err} :
    unique ctx ts p = .error er ↔
      (ctx.queryAll (selector p) = [] ∧ er = .noMatch (selector p)) := by
  simp only [unique]
  split
  · rename_i hzero
    rw [List.length_eq_zero] at hzero
    constructor
    · intro h
      cases h
      exact ⟨hzero, rfl⟩
    · intro ⟨_, h⟩
      rw [h]
  · rename_i hzero
    rw [List.length_eq_zero] at hzero
    constructor
    · intro h
      cases h
    · intro ⟨h, _⟩
      exact absurd h hzero

theorem getLast?_cons_of_ne_nil {α : Type} (a : α) {l : List α} (h : l ≠ []) :
    (a :: l).getLast? = l.getLast? := by
  cases l with
  | nil => exact absurd rfl h
  | cons b r => exact List.getLast?_cons_cons

theorem head?_eraseIdx_of_pos {α : Type} {l : List α} {i : Nat} (h : 1 ≤ i) :
    (l.eraseIdx i).head? = l.head? := by
  cases l with
  | nil => simp
  | cons a r =>
    cases i with
    | zero => omega
    | succ n => simp

theorem getLast?_eraseIdx {α : Type} {l : List α} {i : Nat} (h : i + 1 < l.length) :
    (l.eraseIdx i).getLast? = l.getLast? := by
  induction l generalizing i with
  | nil => simp at h
  | cons a r ih =>
    cases i with
    | zero =>
      simp only [List.eraseIdx_cons_zero]
      have hr : r ≠ [] := by
        intro hh
        rw [hh] at h
        simp at h
      exact (getLast?_cons_of_ne_nil a hr).symm
    | succ n =>
      simp only [List.eraseIdx_cons_succ]
      have hlen : n + 1 < r.length := by
        simp only [List.length_cons] at h
        omega
      have hr : r ≠ [] := by
        intro hh
        rw [hh] at hlen
        simp at hlen
      have hre : r.eraseIdx n ≠ [] := by
        have := List.length_eraseIdx (l := r) (i := n)
        rw [if_pos (by omega)] at this
        intro hh
        rw [hh] at this
        simp at this
        omega
      rw [getLast?_cons_of_ne_nil a hre, getLast?_cons_of_ne_nil a hr]
      exact ih hlen

/-- Soundness of the optimizer: every yielded path is a strictly shorter
sublist of the input path preserving its first and last fragments and
confirmed unique by the oracle, and every logged oracle call was guarded by a
time check that read a non-exceeded elapsed time. -/
theorem optimizeGo_sound (ctx : Ctx) (cfg : Options) (clock : Nat → Nat) (input : List El) :
    ∀ (path : Path) (i t : Nat), ∀ ys t2 lg,
      optimizeGo ctx cfg clock input path i t = .ok (ys, t2, lg) → 1 ≤ i →
      (∀ p2 ∈ ys, p2.Sublist path ∧ p2.length < path.length ∧ p2.head? = path.head? ∧
        p2.getLast? = path.getLast? ∧ unique ctx input p2 = .ok true) ∧
      (∀ c ∈ lg, c.site = .opt ∧ ∃ e, c.guard = some e ∧ timeExceeded cfg e = false) := by
  intro path i t
  induction path, i, t using optimizeGo.induct ctx cfg clock input with
  | case1 path i t h htime =>
    intro ys t2 lg hrun hi
    rw [optimizeGo, dif_pos h, if_pos htime] at hrun
    cases hrun
    exact ⟨by simp, by simp⟩
  | case2 path i t h hne er herr =>
    intro ys t2 lg hrun hi
    rw [optimizeGo, dif_pos h, if_neg hne] at hrun
    simp only [herr] at hrun
    cases hrun
  | case3 path i t h hne huniq er herr ih1 =>
    intro ys t2 lg hrun hi
    rw [optimizeGo, dif_pos h, if_neg hne] at hrun
    simp only [huniq, herr] at hrun
    cases hrun
  | case4 path i t h hne huniq ys1 t1 l1 hrec er herr ih1 ih2 =>
    intro ys t2 lg hrun hi
    rw [optimizeGo, dif_pos h, if_neg hne] at hrun
    simp only [huniq, hrec, herr] at hrun
    cases hrun
  | case5 path i t h hne huniq ys1 t1 l1 hrec ys2 tb l2 hcont ih1 ih2 =>
    intro ys t2 lg hrun hi
    rw [optimizeGo, dif_pos h, if_neg hne] at hrun
    simp only [huniq, hrec, hcont] at hrun
    cases hrun
    obtain ⟨hi1, hc1⟩ := ih1 ys1 t1 l1 hrec (by omega)
    obtain ⟨hi3, hc3⟩ := ih2 ys2 tb l2 hcont (by omega)
    have hlen : (path.eraseIdx i).length = path.length - 1 := by
      rw [List.length_eraseIdx, if_pos (by omega)]
    have hnew : (path.eraseIdx i).Sublist path ∧ (path.eraseIdx i).length < path.length ∧
        (path.eraseIdx i).head? = path.head? ∧ (path.eraseIdx i).getLast? = path.getLast? ∧
        unique ctx input (path.eraseIdx i) = .ok true :=
      ⟨List.eraseIdx_sublist path i, by omega, head?_eraseIdx_of_pos hi,
        getLast?_eraseIdx (by omega), huniq⟩
    constructor
    · intro p2 hp2
      rcases List.mem_cons.mp hp2 with hp2 | hp2
      · rw [hp2]
        exact hnew
      · rcases List.mem_append.mp hp2 with hp2 | hp2
        · obtain ⟨hs, hl, hh, hg, hu⟩ := hi1 p2 hp2
          exact ⟨hs.trans hnew.1, by omega, hh.trans hnew.2.2.1, hg.trans hnew.2.2.2.1, hu⟩
        · exact hi3 p2 hp2
    · intro c hc
      rcases List.mem_cons.mp hc with hc | hc
      · rw [hc]
        exact ⟨rfl, clock t, rfl, by simpa using hne⟩
      · rcases List.mem_append.mp hc with hc | hc
        · exact hc1 c hc
        · exact hc3 c hc
  | case6 path i t h hne huniq er herr ih =>
    intro ys t2 lg hrun hi
    rw [optimizeGo, dif_pos h, if_neg hne] at hrun
    simp only [huniq, herr] at hrun
    cases hrun
  | case7 path i t h hne huniq ys3 t3 l3 hcont ih =>
    intro ys t2 lg hrun hi
    rw [optimizeGo, dif_pos h, if_neg hne] at hrun
    simp only [huniq, hcont] at hrun
    cases hrun
    obtain ⟨hi3, hc3⟩ := ih ys3 t3 l3 hcont (by omega)
    refine ⟨hi3, ?_⟩
    intro c hc
    rcases List.mem_cons.mp hc with hc | hc
    · rw [hc]
      exact ⟨rfl, clock t, rfl, by simpa using hne⟩
    · exact hc3 c hc
  | case8 path i t h =>
    intro ys t2 lg hrun hi
    rw [optimizeGo, dif_neg h] at hrun
    cases hrun
    exact ⟨by simp, by simp⟩

/-- Completeness of one optimizer pass under an unexhausted time budget: every
confirmed-unique interior single-fragment removal at a loop position not yet
passed is among the yields. -/
theorem optimizeGo_complete (ctx : Ctx) (cfg : Options) (clock : Nat → Nat) (input : List El)
    (hck : ∀ k, timeExceeded cfg (clock k) = false) :
    ∀ (path : Path) (i t : Nat), ∀ ys t2 lg,
      optimizeGo ctx cfg clock input path i t = .ok (ys, t2, lg) →
      ∀ j, i ≤ j → j + 1 < path.length → path.length > 2 →
        path.length > cfg.optimizedMinLength →
        unique ctx input (path.eraseIdx j) = .ok true → path.eraseIdx j ∈ ys := by
  intro path i t
  induction path, i, t using optimizeGo.induct ctx cfg clock input with
  | case1 path i t h htime =>
    intro ys t2 lg hrun j hij hjlen hlen2 hlenm huj
    rw [hck t] at htime
    cases htime
  | case2 path i t h hne er herr =>
    intro ys t2 lg hrun j hij hjlen hlen2 hlenm huj
    rw [optimizeGo, dif_pos h, if_neg hne] at hrun
    simp only [herr] at hrun
    cases hrun
  | case3 path i t h hne huniq er herr ih1 =>
    intro ys t2 lg hrun j hij hjlen hlen2 hlenm huj
    rw [optimizeGo, dif_pos h, if_neg hne] at hrun
    simp only [huniq, herr] at hrun
    cases hrun
  | case4 path i t h hne huniq ys1 t1 l1 hrec er herr ih1 ih2 =>
    intro ys t2 lg hrun j hij hjlen hlen2 hlenm huj
    rw [optimizeGo, dif_pos h, if_neg hne] at hrun
    simp only [huniq, hrec, herr] at hrun
    cases hrun
  | case5 path i t h hne huniq ys1 t1 l1 hrec ys2 tb l2 hcont ih1 ih2 =>
    intro ys t2 lg hrun j hij hjlen hlen2 hlenm huj
    rw [optimizeGo, dif_pos h, if_neg hne] at hrun
    simp only [huniq, hrec, hcont] at hrun
    cases hrun
    rcases Nat.eq_or_lt_of_le hij with hj | hj
    · rw [← hj]
      exact List.mem_cons_self _ _
    · have := ih2 ys2 tb l2 hcont j (by omega) hjlen hlen2 hlenm huj
      exact List.mem_cons_of_mem _ (List.mem_append.mpr (Or.inr this))
  | case6 path i t h hne huniq er herr ih =>
    intro ys t2 lg hrun j hij hjlen hlen2 hlenm huj
    rw [optimizeGo, dif_pos h, if_neg hne] at hrun
    simp only [huniq, herr] at hrun
    cases hrun
  | case7 path i t h hne huniq ys3 t3 l3 hcont ih =>
    intro ys t2 lg hrun j hij hjlen hlen2 hlenm huj
    rw [optimizeGo, dif_pos h, if_neg hne] at hrun
    simp only [huniq, hcont] at hrun
    cases hrun
    rcases Nat.eq_or_lt_of_le hij with hj | hj
    · subst hj
      rw [huj] at huniq
      cases huniq
    · exact ih ys3 t3 l3 hcont j (by omega) hjlen hlen2 hlenm huj
  | case8 path i t h =>
    intro ys t2 lg hrun j hij hjlen hlen2 hlenm huj
    exact absurd ⟨hlen2, hlenm, by omega⟩ h

/-- Closure of an optimizer pass under an unexhausted time budget: the yield
set is closed under further confirmed-unique interior removals, capturing the
recursive re-optimization of every yielded path. -/
theorem optimizeGo_closed (ctx : Ctx) (cfg : Options) (clock : Nat → Nat) (input : List El)
    (hck : ∀ k, timeExceeded cfg (clock k) = false) :
    ∀ (path : Path) (i t : Nat), ∀ ys t2 lg,
      optimizeGo ctx cfg clock input path i t = .ok (ys, t2, lg) →
      ∀ p2 ∈ ys, ∀ j, 1 ≤ j → j + 1 < p2.length → p2.length > 2 →
        p2.length > cfg.optimizedMinLength →
        unique ctx input (p2.eraseIdx j) = .ok true → p2.eraseIdx j ∈ ys := by
  intro path i t
  induction path, i, t using optimizeGo.induct ctx cfg clock input with
  | case1 path i t h htime =>
    intro ys t2 lg hrun
    rw [hck t] at htime
    cases htime
  | case2 path i t h hne er herr =>
    intro ys t2 lg hrun
    rw [optimizeGo, dif_pos h, if_neg hne] at hrun
    simp only [herr] at hrun
    cases hrun
  | case3 path i t h hne huniq er herr ih1 =>
    intro ys t2 lg hrun
    rw [optimizeGo, dif_pos h, if_neg hne] at hrun
    simp only [huniq, herr] at hrun
    cases hrun
  | case4 path i t h hne huniq ys1 t1 l1 hrec er herr ih1 ih2 =>
    intro ys t2 lg hrun
    rw [optimizeGo, dif_pos h, if_neg hne] at hrun
    simp only [huniq, hrec, herr] at hrun
    cases hrun
  | case5 path i t h hne huniq ys1 t1 l1 hrec ys2 tb l2 hcont ih1 ih2 =>
    intro ys t2 lg hrun
    rw [optimizeGo, dif_pos h, if_neg hne] at hrun
    simp only [huniq, hrec, hcont] at hrun
    cases hrun
    intro p2 hp2 j hj hjlen hlen2 hlenm huj
    rcases List.mem_cons.mp hp2 with hp2 | hp2
    · subst hp2
      have := optimizeGo_complete ctx cfg clock input hck _ 1 (t + 1) ys1 t1 l1 hrec j
        (by omega) hjlen hlen2 hlenm huj
      exact List.mem_cons_of_mem _ (List.mem_append.mpr (Or.inl this))
    · rcases List.mem_append.mp hp2 with hp2 | hp2
      · have := ih1 ys1 t1 l1 hrec p2 hp2 j hj hjlen hlen2 hlenm huj
        exact List.mem_cons_of_mem _ (List.mem_append.mpr (Or.inl this))
      · have := ih2 ys2 tb l2 hcont p2 hp2 j hj hjlen hlen2 hlenm huj
        exact List.mem_cons_of_mem _ (List.mem_append.mpr (Or.inr this))
  | case6 path i t h hne huniq er herr ih =>
    intro ys t2 lg hrun
    rw [optimizeGo, dif_pos h, if_neg hne] at hrun
    simp only [huniq, herr] at hrun
    cases hrun
  | case7 path i t h hne huniq ys3 t3 l3 hcont ih =>
    intro ys t2 lg hrun
    rw [optimizeGo, dif_pos h, if_neg hne] at hrun
    simp only [huniq, hcont] at hrun
    cases hrun
    exact ih ys3 t3 l3 hcont
  | case8 path i t h =>
    intro ys t2 lg hrun
    rw [optimizeGo, dif_neg h] at hrun
    cases hrun
    intro p2 hp2
    cases hp2

/-- Degenerate-input behaviour of the optimizer: no removal is attempted on a
path of at most two fragments or not longer than `optimizedMinLength`. -/
theorem optimize_skip (ctx : Ctx) (cfg : Options) (clock : Nat → Nat) (input : List El)
    (path : Path) (t : Nat)
    (h : ¬(path.length > 2 ∧ path.length > cfg.optimizedMinLength)) :
    optimize ctx cfg clock input path t = .ok ([], t, []) := by
  rw [optimize, optimizeGo, dif_neg]
  intro ⟨h1, h2, _⟩
  exact h ⟨h1, h2⟩

/-- Exhausted-budget behaviour of the optimizer: when every clock reading
exceeds the budget, the pass stops before any removal attempt, yields nothing,
performs no oracle call, and raises no error. -/
theorem optimize_timeout (ctx : Ctx) (cfg : Options) (clock : Nat → Nat) (input : List El)
    (path : Path) (t : Nat)
    (hck : ∀ k, timeExceeded cfg (clock k) = true) :
    ∃ t2, optimize ctx cfg clock input path t = .ok ([], t2, []) := by
  rw [optimize, optimizeGo]
  by_cases h : path.length > 2 ∧ path.length > cfg.optimizedMinLength ∧ 1 + 1 < path.length
  · rw [dif_pos h, if_pos (hck t)]
    exact ⟨t + 1, rfl⟩
  · rw [dif_neg h]
    exact ⟨t, rfl⟩

/-- Guard discipline of the candidate-consumption loop: every oracle call it
performs itself (site `top`) is guarded by a same-iteration clock reading that
did not exceed `timeoutMs` and a path-check count that did not reach
`maxNumberOfPathChecks`. -/
theorem consume_guarded (ctx : Ctx) (cfg : Options) (clock : Nat → Nat) (input : List El) :
    ∀ (cands found : List Path) (count t : Nat), ∀ out t2 lg,
      consume ctx cfg clock input cands found count t = .ok (out, t2, lg) →
      ∀ c ∈ lg, c.site = .top →
        ∃ e n, c.guard = some e ∧ c.cnt = some n ∧
          timeExceeded cfg e = false ∧ countExceeded cfg n = false := by
  intro cands
  induction cands with
  | nil =>
    intro found count t out t2 lg hrun c hc
    rw [consume] at hrun
    cases hrun
    cases hc
  | cons candidate rest ih =>
    intro found count t out t2 lg hrun c hc hsite
    rw [consume] at hrun
    by_cases hb : (timeExceeded cfg (clock t) || countExceeded cfg count) = true
    · rw [if_pos hb] at hrun
      by_cases hf : found.length ≠ 0
      · rw [if_pos hf] at hrun
        cases hrun
        cases hc
      · rw [if_neg hf] at hrun
        match hfb : fallbackPath ctx input with
        | none =>
          simp only [hfb] at hrun
          cases hrun
        | some fPath =>
          match hu : unique ctx input fPath with
          | .error er =>
            simp only [hfb, hu] at hrun
            cases hrun
          | .ok true =>
            simp only [hfb, hu] at hrun
            cases hrun
            rcases List.mem_singleton.mp hc with rfl
            cases hsite
          | .ok false =>
            simp only [hfb, hu] at hrun
            cases hrun
    · rw [if_neg hb] at hrun
      have hbne := hb
      simp only [Bool.or_eq_true, not_or, Bool.not_eq_true] at hbne
      match hu : unique ctx input candidate with
      | .error er =>
        simp only [hu] at hrun
        cases hrun
      | .ok true =>
        by_cases hone : (input.length == 1) = true
        · simp only [hu, if_pos hone] at hrun
          cases hrun
          rcases List.mem_singleton.mp hc with rfl
          exact ⟨clock t, count, rfl, rfl, hbne.1, hbne.2⟩
        · match hrest : consume ctx cfg clock input rest (found ++ [candidate]) (count + 1) (t + 1) with
          | .error er =>
            simp only [hu, if_neg hone, hrest] at hrun
            cases hrun
          | .ok (out3, t3, l3) =>
            simp only [hu, if_neg hone, hrest] at hrun
            cases hrun
            rcases List.mem_cons.mp hc with rfl | hc3
            · exact ⟨clock t, count, rfl, rfl, hbne.1, hbne.2⟩
            · exact ih _ _ _ _ _ _ hrest c hc3 hsite
      | .ok false =>
        match hrest : consume ctx cfg clock input rest found (count + 1) (t + 1) with
        | .error er =>
          simp only [hu, hrest] at hrun
          cases hrun
        | .ok (out3, t3, l3) =>
          simp only [hu, hrest] at hrun
          cases hrun
          rcases List.mem_cons.mp hc with rfl | hc3
          · exact ⟨clock t, count, rfl, rfl, hbne.1, hbne.2⟩
          · exact ih _ _ _ _ _ _ hrest c hc3 hsite

/-- Call discipline of the permutation explorer: every oracle call it performs
carries no time-guard reading and no count reading, because the function reads
no clock and checks no budget (source lines 425-455 take no start time). -/
theorem permGo_unguarded (ctx : Ctx) (input : List El) (ml : Nat) (ms : Int) :
    ∀ (path : Path) (i : Nat), ∀ ys lg,
      permGo ctx input ml ms path i = .ok (ys, lg) →
      ∀ c ∈ lg, c.site = .perm ∧ c.guard = none ∧ c.cnt = none := by
  intro path i
  induction path, i using permGo.induct ctx input ml ms with
  | case1 path i h er herr ih1 =>
    intro ys lg hrun c hc
    rw [permGo, dif_pos h] at hrun
    simp only [herr] at hrun
    cases hrun
  | case2 path i h ys1 l1 hrec er herr ih1 ih2 =>
    intro ys lg hrun c hc
    rw [permGo, dif_pos h] at hrun
    simp only [hrec, herr] at hrun
    cases hrun
  | case3 path i h ys1 l1 hrec ys2 l2 hcont ih1 ih2 =>
    intro ys lg hrun c hc
    rw [permGo, dif_pos h] at hrun
    simp only [hrec, hcont] at hrun
    cases hrun
    rcases List.mem_append.mp hc with hc | hc
    · exact ih1 ys1 l1 hrec c hc
    · exact ih2 ys2 l2 hcont c hc
  | case4 path i h hpen er herr =>
    intro ys lg hrun c hc
    rw [permGo, dif_neg h, if_pos hpen] at hrun
    simp only [herr] at hrun
    cases hrun
  | case5 path i h hpen huniq =>
    intro ys lg hrun c hc
    rw [permGo, dif_neg h, if_pos hpen] at hrun
    simp only [huniq] at hrun
    cases hrun
    rcases List.mem_singleton.mp hc with rfl
    exact ⟨rfl, rfl, rfl⟩
  | case6 path i h hpen huniq =>
    intro ys lg hrun c hc
    rw [permGo, dif_neg h, if_pos hpen] at hrun
    simp only [huniq] at hrun
    cases hrun
    rcases List.mem_singleton.mp hc with rfl
    exact ⟨rfl, rfl, rfl⟩
  | case7 path i h hpen =>
    intro ys lg hrun c hc
    rw [permGo, dif_neg h, if_neg hpen] at hrun
    cases hrun
    cases hc

/-! Claim C5. -/

/-- Claim C5: the optimizer attempts removals only on paths of more than two
fragments that are longer than `optimizedMinLength` (degenerate inputs yield
nothing, read no clock, query no oracle); every yield is a strictly shorter
sublist of the input path that keeps fragment 0 and the last fragment and is
oracle-confirmed unique, and every oracle call is guarded by an in-budget time
reading taken immediately before the removal attempt; under an unexhausted
budget the yields contain every confirmed-unique interior single-fragment
removal and are closed under further such removals (the recursive
re-optimization); and under an exhausted budget the pass stops with no yields,
no calls, and no error. -/
theorem claim5_optimizer (ctx : Ctx) (cfg : Options) (clock : Nat → Nat) (input : List El)
    (path : Path) (t : Nat) :
    (¬(path.length > 2 ∧ path.length > cfg.optimizedMinLength) →
      optimize ctx cfg clock input path t = .ok ([], t, [])) ∧
    (∀ ys t2 lg, optimize ctx cfg clock input path t = .ok (ys, t2, lg) →
      (∀ p2 ∈ ys, p2.Sublist path ∧ p2.length < path.length ∧ p2.head? = path.head? ∧
        p2.getLast? = path.getLast? ∧ unique ctx input p2 = .ok true) ∧
      (∀ c ∈ lg, ∃ e, c.guard = some e ∧ timeExceeded cfg e = false)) ∧
    ((∀ k, timeExceeded cfg (clock k) = false) →
      ∀ ys t2 lg, optimize ctx cfg clock input path t = .ok (ys, t2, lg) →
        (∀ j, 1 ≤ j → j + 1 < path.length → path.length > 2 →
          path.length > cfg.optimizedMinLength →
          unique ctx input (path.eraseIdx j) = .ok true → path.eraseIdx j ∈ ys) ∧
        (∀ p2 ∈ ys, ∀ j, 1 ≤ j → j + 1 < p2.length → p2.length > 2 →
          p2.length > cfg.optimizedMinLength →
          unique ctx input (p2.eraseIdx j) = .ok true → p2.eraseIdx j ∈ ys)) ∧
    ((∀ k, timeExceeded cfg (clock k) = true) →
      ∃ t2, optimize ctx cfg clock input path t = .ok ([], t2, [])) := by
  refine ⟨optimize_skip ctx cfg clock input path t, ?_, ?_, optimize_timeout ctx cfg clock input path t⟩
  · intro ys t2 lg hrun
    obtain ⟨h1, h2⟩ := optimizeGo_sound ctx cfg clock input path 1 t ys t2 lg hrun (by omega)
    exact ⟨h1, fun c hc => (h2 c hc).2⟩
  · intro hck ys t2 lg hrun
    exact ⟨fun j hj => optimizeGo_complete ctx cfg clock input hck path 1 t ys t2 lg hrun j hj,
      optimizeGo_closed ctx cfg clock input hck path 1 t ys t2 lg hrun⟩

/-- Witness for claim C5: on the three-fragment path `[a, b, c]` the optimizer
removes the interior fragment `b`, the oracle confirms the shorter path `c a`,
and the yield is exactly that path with one guarded oracle call. -/
theorem claim5_witness :
    optimize cxCA defaults (fun _ => 0) [wEl] [kA, kB, kC] 0 =
        .ok ([[kA, kC]], 1, [⟨.opt, "c a", some 0, none⟩]) ∧
      [kA, kC].Sublist [kA, kB, kC] ∧ unique cxCA [wEl] [kA, kC] = .ok true := by
  have h1 : optimizeGo cxCA defaults (fun _ => 0) [wEl] ([kA, kB, kC].eraseIdx 1) 1 1 =
      .ok ([], 1, []) := by
    rw [optimizeGo, dif_neg (by decide)]
  have h2 : optimizeGo cxCA defaults (fun _ => 0) [wEl] [kA, kB, kC] 2 1 =
      .ok ([], 1, []) := by
    rw [optimizeGo, dif_neg (by decide)]
  have hrun : optimize cxCA defaults (fun _ => 0) [wEl] [kA, kB, kC] 0 =
      .ok ([[kA, kC]], 1, [⟨.opt, "c a", some 0, none⟩]) := by
    rw [optimize, optimizeGo, dif_pos (by decide), if_neg (by decide),
      show unique cxCA [wEl] ([kA, kB, kC].eraseIdx 1) = .ok true from by decide]
    simp only [h1, h2, Nat.reduceAdd]
    decide
  have hmem := (((claim5_optimizer cxCA defaults (fun _ => 0) [wEl] [kA, kB, kC] 0).2.1)
    _ _ _ hrun).1 [kA, kC] (by simp)
  exact ⟨hrun, hmem.1, hmem.2.2.2.2⟩

/-! Claim C6. -/

/-- Counterexample to claim C6: the permutation explorer performs a uniqueness
check that is guarded by no elapsed-time reading at all — the source function
(finder.ts lines 425-455) never consults the clock, so this check also happens
when the time budget is already exhausted, contradicting the claim that every
one of the three loops re-checks elapsed time before each unit of work. -/
theorem claim6_counterexample :
    permuations cxCA [wEl] 10 100 [kA, kC] =
      .ok ([[kA, kC]], [⟨.perm, "c a", none, none⟩]) := by
  rw [permuations, permGo, dif_neg (by decide), if_pos (by decide),
    show unique cxCA [wEl] [kA, kC] = .ok true from by decide]
  decide

/-- Claim C6 as amended: the top-level consumption loop guards each of its own
uniqueness checks with a same-iteration elapsed-time reading within
`timeoutMs` and a path-check count below `maxNumberOfPathChecks`, and the
optimizer guards each of its checks with an in-budget elapsed-time reading;
the permutation explorer, however, performs its uniqueness checks with no time
re-check at all, so its checks are not prevented after budget exhaustion. -/
theorem claim6_budget_checks (ctx : Ctx) (cfg : Options) (clock : Nat → Nat) (input : List El) :
    (∀ cands found count t out t2 lg,
      consume ctx cfg clock input cands found count t = .ok (out, t2, lg) →
      ∀ c ∈ lg, c.site = .top →
        ∃ e n, c.guard = some e ∧ c.cnt = some n ∧
          timeExceeded cfg e = false ∧ countExceeded cfg n = false) ∧
    (∀ path t ys t2 lg, optimize ctx cfg clock input path t = .ok (ys, t2, lg) →
      ∀ c ∈ lg, c.site = .opt ∧ ∃ e, c.guard = some e ∧ timeExceeded cfg e = false) ∧
    (∀ ml ms path i ys lg, permGo ctx input ml ms path i = .ok (ys, lg) →
      ∀ c ∈ lg, c.guard = none) := by
  refine ⟨consume_guarded ctx cfg clock input, ?_, ?_⟩
  · intro path t ys t2 lg hrun c hc
    exact (optimizeGo_sound ctx cfg clock input path 1 t ys t2 lg hrun (by omega)).2 c hc
  · intro ml ms path i ys lg hrun c hc
    exact (permGo_unguarded ctx input ml ms path i ys lg hrun c hc).2.1

/-- Witness for claim C6's amended statement on a concrete consumption-loop
run: its one oracle call carries an in-budget guard reading and an in-budget
check count. -/
theorem claim6_witness :
    ∃ e n, (⟨Site.top, "a", some 0, some 0⟩ : OracleCall).guard = some e ∧
      (⟨Site.top, "a", some 0, some 0⟩ : OracleCall).cnt = some n ∧
      timeExceeded defaults e = false ∧ countExceeded defaults n = false := by
  have hrun : consume cxA defaults (fun _ => 0) [wEl] [[kA]] [] 0 0 =
      .ok (.proceed [[kA]], 1, [⟨Site.top, "a", some 0, some 0⟩]) := by decide
  exact (claim6_budget_checks cxA defaults (fun _ => 0) [wEl]).1
    _ _ _ _ _ _ _ hrun ⟨Site.top, "a", some 0, some 0⟩ (by simp) rfl

/-! Claims C4 and C9: the search enumeration. -/

theorem combinations_eq_cart : ∀ (stack : List (List Knot)) (acc : Path),
    combinations stack acc = (cartLastFastest stack).map (fun q => acc ++ q)
  | [], acc => by simp [combinations, cartLastFastest]
  | lvl :: rest, acc => by
    simp only [combinations, cartLastFastest]
    simp only [combinations_eq_cart rest]
    simp only [List.map_flatMap, List.map_map]
    simp [Function.comp_def]

theorem combinations_mem : ∀ (stack : List (List Knot)) (acc p : Path),
    (p ∈ combinations stack acc ↔
      ∃ q, p = acc ++ q ∧ List.Forall₂ (fun k lvl => k ∈ lvl) q stack)
  | [], acc, p => by
    simp [combinations]
  | lvl :: rest, acc, p => by
    simp only [combinations, List.mem_flatMap]
    constructor
    · intro ⟨n, hn, hp⟩
      obtain ⟨q, hq, hf⟩ := (combinations_mem rest (acc ++ [n]) p).mp hp
      exact ⟨n :: q, by simp [hq], List.Forall₂.cons hn hf⟩
    · intro ⟨q, hq, hf⟩
      cases hf with
      | @cons n b q2 rest2 hn hf2 =>
        exact ⟨n, hn, (combinations_mem rest (acc ++ [n]) p).mpr ⟨q2, by simp [hq], hf2⟩⟩

theorem stampLevel_level {i : Nat} {lvl : List Knot} {k : Knot}
    (hk : k ∈ stampLevel i lvl) : k.level = some (i : Int) := by
  obtain ⟨k0, _, rfl⟩ := List.mem_map.mp hk
  rfl

theorem consec_of_forall2 {q : Path} {stack : List (List Knot)}
    (hf : List.Forall₂ (fun k lvl => k ∈ lvl) q stack)
    (hstack : ∀ j (hj : j < stack.length), ∀ k ∈ stack.get ⟨j, hj⟩, k.level = some (j : Int)) :
    consecLevels q := by
  intro j hj
  have hlen := List.Forall₂.length_eq hf
  have hj2 : j < stack.length := by omega
  have := (List.forall₂_iff_get.mp hf).2 j hj hj2
  exact hstack j hj2 _ this

/-- Search invariant: starting from a stack of already-stamped levels (level
`j` of the stack stamped `j`) with the depth counter equal to the stack height
and a pending list of consecutively-stamped paths, every candidate the walk
yields is consecutively stamped from level 0. -/
theorem searchGo_levels (ctx : Ctx) (cfg : Options) :
    ∀ (e : El) (stack : List (List Knot)) (pending : List Path) (i : Nat),
      i = stack.length →
      (∀ j (hj : j < stack.length), ∀ k ∈ stack.get ⟨j, hj⟩, k.level = some (j : Int)) →
      (∀ p ∈ pending, consecLevels p) →
      ∀ p ∈ searchGo ctx cfg e stack pending i, consecLevels p
  | .mk d par, stack, pending, i => by
    intro hi hstack hpend p hp
    rw [searchGo] at hp
    by_cases hs : ctx.stops (.mk d par) = true
    · rw [if_pos hs] at hp
      exact hpend p (mem_sortPaths.mp hp)
    · rw [if_neg hs] at hp
      have hstack2 : ∀ j (hj : j < (stack ++ [stampLevel i (tie ctx cfg (.mk d par))]).length),
          ∀ k ∈ (stack ++ [stampLevel i (tie ctx cfg (.mk d par))]).get ⟨j, hj⟩,
            k.level = some (j : Int) := by
        intro j hj k hk
        rcases Nat.lt_or_ge j stack.length with hcase | hcase
        · rw [List.get_append_left _ _ hcase] at hk
          exact hstack j hcase k hk
        · have hjl : j = stack.length := by
            simp only [List.length_append, List.length_singleton] at hj
            omega
        
          subst hjl
          simp only [List.get_eq_getElem, List.getElem_concat_length] at hk
          rw [← hi]
          exact stampLevel_level hk
      have hpend2 : ∀ q ∈ pending ++
          combinations (stack ++ [stampLevel i (tie ctx cfg (.mk d par))]) [], consecLevels q := by
        intro q hq
        rcases List.mem_append.mp hq with hq | hq
        · exact hpend q hq
        · obtain ⟨q2, hq2, hf⟩ := (combinations_mem _ [] q).mp hq
          rw [hq2, List.nil_append]
          exact consec_of_forall2 hf hstack2
      by_cases hseed : i + 1 ≥ cfg.seedMinLength
      · rw [if_pos hseed] at hp
        rcases List.mem_append.mp hp with hp | hp
        · exact hpend2 p (mem_sortPaths.mp hp)
        · match par with
          | none =>
            exact absurd (mem_sortPaths.mp hp) (List.not_mem_nil p)
          | some pp =>
            exact searchGo_levels ctx cfg pp _ [] (i + 1)
              (by simp [← hi]) hstack2 (by simp) p hp
      · rw [if_neg hseed] at hp
        match par with
        | none =>
          exact hpend2 p (mem_sortPaths.mp hp)
        | some pp =>
          exact searchGo_levels ctx cfg pp _ _ (i + 1)
            (by simp [← hi]) hstack2 hpend2 p hp

theorem selectorGo_chained : ∀ (rest : Path) (node : Knot) (q : String) (b : Int),
    node.level = some b →
    (∀ j (h : j < rest.length), (rest.get ⟨j, h⟩).level = some (b + 1 + (j : Int))) →
    selectorGo node q rest = selectorChainedGo q rest
  | [], node, q, b => by
    intro _ _
    rfl
  | k :: rs, node, q, b => by
    intro hb hrest
    have hk : k.level = some (b + 1) := by
      have := hrest 0 (by simp)
      simpa using this
    have hcond : node.level = some (k.level.getD 0 - 1) := by
      rw [hb, hk]
      simp only [Option.getD_some]
      congr 1
      omega
    simp only [selectorGo, selectorChainedGo]
    rw [if_pos hcond]
    exact selectorGo_chained rs k _ (b + 1) hk (by
      intro j hj
      have := hrest (j + 1) (by simpa using Nat.succ_lt_succ hj)
      simp only [List.get_cons_succ] at this
      rw [this]
      congr 1
      push_cast
      ring)

theorem consec_selector_chained {p : Path} (hc : consecLevels p) :
    selector p = selectorChained p := by
  cases p with
  | nil => rfl
  | cons k rest =>
    simp only [selector, selectorChained]
    have hk : k.level = some 0 := by
      have := hc 0 (by simp)
      simpa using this
    exact selectorGo_chained rest k k.name 0 hk (by
      intro j hj
      have := hc (j + 1) (by simpa using Nat.succ_lt_succ hj)
      simp only [List.get_cons_succ] at this
      rw [this]
      congr 1
      push_cast
      ring)

/-! Claim C9. -/

/-- Claim C9: every candidate yielded by the search generator carries exactly
one fragment per ancestor level with fragment `j` stamped level `j` for
consecutive levels from 0, and consequently its rendered selector joins every
adjacent fragment pair with the child combinator and never the descendant
combinator (it equals the child-only rendering). -/
theorem claim9_search_candidates (ctx : Ctx) (cfg : Options) (input : List El) :
    ∀ p ∈ search ctx cfg input, consecLevels p ∧ selector p = selectorChained p := by
  intro p hp
  match input with
  | [] =>
    rw [search] at hp
    cases hp
  | e :: rest =>
    rw [search] at hp
    have hc := searchGo_levels ctx cfg e [] [] 0 rfl (by simp) (by simp) p hp
    exact ⟨hc, consec_selector_chained hc⟩

/-- Witness for claim C9: a concrete two-level candidate produced by the
search on a two-element chain is consecutively stamped and renders with the
child combinator only. -/
theorem claim9_witness :
    consecLevels [{ name := "#app", penalty := 0, level := some 0 },
        { name := "div", penalty := 5, level := some 1 }] ∧
      selector [{ name := "#app", penalty := 0, level := some 0 },
        { name := "div", penalty := 5, level := some 1 }] =
      selectorChained [{ name := "#app", penalty := 0, level := some 0 },
        { name := "div", penalty := 5, level := some 1 }] :=
  claim9_search_candidates wCtx defaults [wElB] _ (by decide)

theorem searchGo_eq_spec (ctx : Ctx) (cfg : Options) :
    ∀ (e : El) (stack : List (List Knot)) (pending : List Path) (i : Nat),
      searchGo ctx cfg e stack pending i =
        specGo cfg.seedMinLength stack (levelsOf ctx cfg e i) pending i
  | .mk d par, stack, pending, i => by
    have hlv : levelsOf ctx cfg (.mk d par) i =
        (if ctx.stops (.mk d par) then []
          else
            stampLevel i (tie ctx cfg (.mk d par)) ::
              (match par with
                | none => []
                | some p => levelsOf ctx cfg p (i + 1))) := by
      rw [levelsOf.eq_def]
    rw [searchGo, hlv]
    by_cases hs : ctx.stops (.mk d par) = true
    · rw [if_pos hs, if_pos hs]
      rfl
    · rw [if_neg hs, if_neg hs]
      have hcomb : combinations (stack ++ [stampLevel i (tie ctx cfg (.mk d par))]) [] =
          cartLastFastest (stack ++ [stampLevel i (tie ctx cfg (.mk d par))]) := by
        rw [combinations_eq_cart]
        simp
      simp only [specGo, hcomb]
      by_cases hseed : i + 1 ≥ cfg.seedMinLength
      · rw [if_pos hseed, if_pos hseed]
        cases par with
        | none => rfl
        | some pp =>
          have := searchGo_eq_spec ctx cfg pp
            (stack ++ [stampLevel i (tie ctx cfg (.mk d (some pp)))]) [] (i + 1)
          simp only [this]
      · rw [if_neg hseed, if_neg hseed]
        cases par with
        | none => rfl
        | some pp =>
          have := searchGo_eq_spec ctx cfg pp
            (stack ++ [stampLevel i (tie ctx cfg (.mk d (some pp)))])
            (pending ++ combinations (stack ++ [stampLevel i (tie ctx cfg (.mk d (some pp)))]) [])
            (i + 1)
          simp only [hcomb] at this
          simp only [this]

/-! Claim C4. -/

/-- Counterexample to claim C4: on a two-level stack the source `combinations`
enumerates with the first level varying SLOWEST — the first-level choice `a`
is paired with every second-level choice before `b` appears — while the claim
asserts the first level varies fastest (the order computed by
`cartFirstFastest`); the two enumerations of the same stack differ. -/
theorem claim4_counterexample :
    combinations [[{ name := "a", penalty := 0 }, { name := "b", penalty := 0 }],
        [{ name := "c", penalty := 0 }, { name := "d", penalty := 0 }]] [] =
      [[{ name := "a", penalty := 0 }, { name := "c", penalty := 0 }],
        [{ name := "a", penalty := 0 }, { name := "d", penalty := 0 }],
        [{ name := "b", penalty := 0 }, { name := "c", penalty := 0 }],
        [{ name := "b", penalty := 0 }, { name := "d", penalty := 0 }]] ∧
    cartFirstFastest [[{ name := "a", penalty := 0 }, { name := "b", penalty := 0 }],
        [{ name := "c", penalty := 0 }, { name := "d", penalty := 0 }]] =
      [[{ name := "a", penalty := 0 }, { name := "c", penalty := 0 }],
        [{ name := "b", penalty := 0 }, { name := "c", penalty := 0 }],
        [{ name := "a", penalty := 0 }, { name := "d", penalty := 0 }],
        [{ name := "b", penalty := 0 }, { name := "d", penalty := 0 }]] ∧
    combinations [[{ name := "a", penalty := 0 }, { name := "b", penalty := 0 }],
        [{ name := "c", penalty := 0 }, { name := "d", penalty := 0 }]] [] ≠
      cartFirstFastest [[{ name := "a", penalty := 0 }, { name := "b", penalty := 0 }],
        [{ name := "c", penalty := 0 }, { name := "d", penalty := 0 }]] := by
  refine ⟨by decide, by decide, by decide⟩

/-- Claim C4 as amended: the search generator coincides with the claim-side
description `searchClaimed` — per pushed ancestor level it appends the full
Cartesian product of one fragment per level seen so far with the last level
varying fastest, and once the depth counter reaches `seedMinLength` it yields
the pending list sorted by ascending score, clears it, and resumes yielding
after every further level increment. -/
theorem claim4_search_enumeration (ctx : Ctx) (cfg : Options) (input : List El) :
    search ctx cfg input = searchClaimed ctx cfg input := by
  cases input with
  | nil => rfl
  | cons e rest =>
    rw [search, searchClaimed]
    exact searchGo_eq_spec ctx cfg e [] [] 0

/-! Claim C1: soundness of every selector the driver returns. -/

/-- Soundness of the permutation explorer: every yield was confirmed unique by
the oracle. -/
theorem permGo_sound (ctx : Ctx) (input : List El) (ml : Nat) (ms : Int) :
    ∀ (path : Path) (i : Nat), ∀ ys lg,
      permGo ctx input ml ms path i = .ok (ys, lg) →
      ∀ p ∈ ys, unique ctx input p = .ok true := by
  intro path i
  induction path, i using permGo.induct ctx input ml ms with
  | case1 path i h er herr ih1 =>
    intro ys lg hrun p hp
    rw [permGo, dif_pos h] at hrun
    simp only [herr] at hrun
    cases hrun
  | case2 path i h ys1 l1 hrec er herr ih1 ih2 =>
    intro ys lg hrun p hp
    rw [permGo, dif_pos h] at hrun
    simp only [hrec, herr] at hrun
    cases hrun
  | case3 path i h ys1 l1 hrec ys2 l2 hcont ih1 ih2 =>
    intro ys lg hrun p hp
    rw [permGo, dif_pos h] at hrun
    simp only [hrec, hcont] at hrun
    cases hrun
    rcases List.mem_append.mp hp with hp | hp
    · exact ih1 ys1 l1 hrec p hp
    · exact ih2 ys2 l2 hcont p hp
  | case4 path i h hpen er herr =>
    intro ys lg hrun p hp
    rw [permGo, dif_neg h, if_pos hpen] at hrun
    simp only [herr] at hrun
    cases hrun
  | case5 path i h hpen huniq =>
    intro ys lg hrun p hp
    rw [permGo, dif_neg h, if_pos hpen] at hrun
    simp only [huniq] at hrun
    cases hrun
    rcases List.mem_singleton.mp hp with rfl
    exact huniq
  | case6 path i h hpen huniq =>
    intro ys lg hrun p hp
    rw [permGo, dif_neg h, if_pos hpen] at hrun
    simp only [huniq] at hrun
    cases hrun
    cases hp
  | case7 path i h hpen =>
    intro ys lg hrun p hp
    rw [permGo, dif_neg h, if_neg hpen] at hrun
    cases hrun
    cases hp

/-- Soundness of the sequenced permutation explorations. -/
theorem permsOver_sound (ctx : Ctx) (input : List El) (ml : Nat) (ms : Int) :
    ∀ (paths : List Path), ∀ ys lg,
      permsOver ctx input ml ms paths = .ok (ys, lg) →
      ∀ p ∈ ys, unique ctx input p = .ok true := by
  intro paths
  induction paths with
  | nil =>
    intro ys lg hrun p hp
    rw [permsOver] at hrun
    cases hrun
    cases hp
  | cons q rest ih =>
    intro ys lg hrun p hp
    rw [permsOver] at hrun
    match h1 : permuations ctx input ml ms q with
    | .error er =>
      rw [h1] at hrun
      cases hrun
    | .ok (ys1, l1) =>
      rw [h1] at hrun
      match h2 : permsOver ctx input ml ms rest with
      | .error er =>
        simp only [h2] at hrun
        cases hrun
      | .ok (ys2, l2) =>
        simp only [h2] at hrun
        cases hrun
        rcases List.mem_append.mp hp with hp | hp
        · exact permGo_sound ctx input ml ms q 1 ys1 l1 h1 p hp
        · exact ih ys2 l2 h2 p hp

/-- Soundness of the sequenced optimizer passes: when every seed path is
oracle-confirmed unique, so is every path of the flattened output. -/
theorem optimizeOver_sound (ctx : Ctx) (cfg : Options) (clock : Nat → Nat) (input : List El) :
    ∀ (paths : List Path) (t : Nat), ∀ ys t2 lg,
      optimizeOver ctx cfg clock input paths t = .ok (ys, t2, lg) →
      (∀ p ∈ paths, unique ctx input p = .ok true) →
      ∀ p ∈ ys, unique ctx input p = .ok true := by
  intro paths
  induction paths with
  | nil =>
    intro t ys t2 lg hrun hseed p hp
    rw [optimizeOver] at hrun
    cases hrun
    cases hp
  | cons q rest ih =>
    intro t ys t2 lg hrun hseed p hp
    rw [optimizeOver] at hrun
    match h1 : optimize ctx cfg clock input q t with
    | .error er =>
      rw [h1] at hrun
      cases hrun
    | .ok (ys1, t1, l1) =>
      rw [h1] at hrun
      match h2 : optimizeOver ctx cfg clock input rest t1 with
      | .error er =>
        simp only [h2] at hrun
        cases hrun
      | .ok (ys2, tb, l2) =>
        simp only [h2] at hrun
        cases hrun
        rcases List.mem_append.mp hp with hp | hp
        · rcases List.mem_cons.mp hp with rfl | hp
          · exact hseed p (by simp)
          · exact ((optimizeGo_sound ctx cfg clock input q 1 t ys1 t1 l1 h1
              (by omega)).1 p hp).2.2.2.2
        · exact ih t1 _ _ _ h2 (fun r hr => hseed r (by simp [hr])) p hp

/-- Soundness of the consumption loop: starting from an accumulator of
oracle-confirmed paths, a `proceed` outcome contains only oracle-confirmed
paths and an `immediate` outcome is the rendering of an oracle-confirmed
path. -/
theorem consume_sound (ctx : Ctx) (cfg : Options) (clock : Nat → Nat) (input : List El) :
    ∀ (cands found : List Path) (count t : Nat), ∀ out t2 lg,
      consume ctx cfg clock input cands found count t = .ok (out, t2, lg) →
      (∀ p ∈ found, unique ctx input p = .ok true) →
      (∀ found2, out = .proceed found2 → ∀ p ∈ found2, unique ctx input p = .ok true) ∧
      (∀ s, out = .immediate s → ∃ p, unique ctx input p = .ok true ∧ s = selector p) := by
  intro cands
  induction cands with
  | nil =>
    intro found count t out t2 lg hrun hfound
    rw [consume] at hrun
    cases hrun
    constructor
    · intro found2 heq
      cases heq
      exact hfound
    · intro s heq
      cases heq
  | cons candidate rest ih =>
    intro found count t out t2 lg hrun hfound
    rw [consume] at hrun
    by_cases hb : (timeExceeded cfg (clock t) || countExceeded cfg count) = true
    · rw [if_pos hb] at hrun
      by_cases hf : found.length ≠ 0
      · rw [if_pos hf] at hrun
        cases hrun
        constructor
        · intro found2 heq
          cases heq
          exact hfound
        · intro s heq
          cases heq
      · rw [if_neg hf] at hrun
        match hfb : fallbackPath ctx input with
        | none =>
          simp only [hfb] at hrun
          cases hrun
        | some fPath =>
          match hu : unique ctx input fPath with
          | .error er =>
            simp only [hfb, hu] at hrun
            cases hrun
          | .ok true =>
            simp only [hfb, hu] at hrun
            cases hrun
            constructor
            · intro found2 heq
              cases heq
            · intro s heq
              cases heq
              exact ⟨fPath, hu, rfl⟩
          | .ok false =>
            simp only [hfb, hu] at hrun
            cases hrun
    · rw [if_neg hb] at hrun
      match hu : unique ctx input candidate with
      | .error er =>
        simp only [hu] at hrun
        cases hrun
      | .ok true =>
        by_cases hone : (input.length == 1) = true
        · simp only [hu, if_pos hone] at hrun
          cases hrun
          constructor
          · intro found2 heq
            cases heq
            intro p hp
            rcases List.mem_append.mp hp with hp | hp
            · exact hfound p hp
            · rcases List.mem_singleton.mp hp with rfl
              exact hu
          · intro s heq
            cases heq
        · match hrest : consume ctx cfg clock input rest (found ++ [candidate])
              (count + 1) (t + 1) with
          | .error er =>
            simp only [hu, if_neg hone, hrest] at hrun
            cases hrun
          | .ok (out3, t3, l3) =>
            simp only [hu, if_neg hone, hrest] at hrun
            cases hrun
            refine ih _ _ _ _ _ _ hrest ?_
            intro p hp
            rcases List.mem_append.mp hp with hp | hp
            · exact hfound p hp
            · rcases List.mem_singleton.mp hp with rfl
              exact hu
      | .ok false =>
        match hrest : consume ctx cfg clock input rest found (count + 1) (t + 1) with
        | .error er =>
          simp only [hu, hrest] at hrun
          cases hrun
        | .ok (out3, t3, l3) =>
          simp only [hu, hrest] at hrun
          cases hrun
          exact ih _ _ _ _ _ _ hrest hfound

/-- Soundness of the driver: apart from the all-targets-are-root early return,
every selector string `finder` returns normally is the rendering of a path the
uniqueness oracle confirmed against the target list. -/
theorem finder_sound (ctx : Ctx) (cfg : Options) (clock : Nat → Nat) (input : List El)
    (s : String) (t : Nat) (lg : List OracleCall)
    (hh : input.all (fun e => lowerStr e.data.tag == "html") = false)
    (hrun : finder ctx cfg clock input = .ok (s, t, lg)) :
    ∃ p, unique ctx input p = .ok true ∧ s = selector p := by
  rw [finder] at hrun
  by_cases hany : (input.any fun e => decide (e.data.nodeType ≠ 1)) = true
  · rw [if_pos hany] at hrun
    cases hrun
  · rw [if_neg hany] at hrun
    have hhtml : ¬((input.all fun e => lowerStr e.data.tag == "html") = true) := by
      simp [hh]
    rw [if_neg hhtml] at hrun
    match hcons : consume ctx cfg clock input (search ctx cfg input) [] 0 0 with
    | .error er =>
      simp only [hcons] at hrun
      cases hrun
    | .ok (.immediate s2, tc, lgc) =>
      simp only [hcons] at hrun
      cases hrun
      exact (consume_sound ctx cfg clock input _ [] 0 0 _ _ _ hcons (by simp)).2 _ rfl
    | .ok (.proceed foundPaths, tc, lgc) =>
      simp only [hcons] at hrun
      have hfound2 : ∀ p ∈ foundPaths, unique ctx input p = .ok true :=
        (consume_sound ctx cfg clock input _ [] 0 0 _ _ _ hcons (by simp)).1 foundPaths rfl
      by_cases hfz : foundPaths.length = 0
      · rw [if_pos hfz] at hrun
        cases hrun
      · rw [if_neg hfz] at hrun
        have hfp : foundPaths ≠ [] := by
          intro hnil
          rw [hnil] at hfz
          simp at hfz
        have hfirstMem : headPath (sortPaths foundPaths) ∈ foundPaths :=
          mem_sortPaths.mp (headPath_mem (by
            rw [Ne, sortPaths_eq_nil_iff]
            exact hfp))
        have hfirstU : unique ctx input (headPath (sortPaths foundPaths)) = .ok true :=
          hfound2 _ hfirstMem
        match hopt : optimize ctx cfg clock input (headPath (sortPaths foundPaths)) tc with
        | .error er =>
          simp only [hopt] at hrun
          cases hrun
        | .ok (optYs, t1, log1) =>
          simp only [hopt] at hrun
          have hoptU : ∀ p ∈ optYs, unique ctx input p = .ok true := fun p hp =>
            ((optimizeGo_sound ctx cfg clock input _ 1 _ _ _ _ hopt (by omega)).1 p hp).2.2.2.2
          have hinitU : ∀ p ∈ sortPaths (headPath (sortPaths foundPaths) :: optYs),
              unique ctx input p = .ok true := by
            intro p hp
            rcases List.mem_cons.mp (mem_sortPaths.mp hp) with rfl | hp2
            · exact hfirstU
            · exact hoptU p hp2
          have hfoU : unique ctx input
              (headPath (sortPaths (headPath (sortPaths foundPaths) :: optYs))) = .ok true :=
            hinitU _ (headPath_mem (by
              rw [Ne, sortPaths_eq_nil_iff]
              exact List.cons_ne_nil _ _))
          by_cases hlen : input.length > 1
          · rw [if_pos hlen] at hrun
            match hperm : permsOver ctx input
                (headPath (sortPaths (headPath (sortPaths foundPaths) :: optYs))).length
                (penalty (headPath (sortPaths (headPath (sortPaths foundPaths) :: optYs))))
                (sortPaths foundPaths).tail with
            | .error er =>
              simp only [hperm] at hrun
              cases hrun
            | .ok (otherPerms, log2) =>
              simp only [hperm] at hrun
              have hpermU : ∀ p ∈ otherPerms, unique ctx input p = .ok true :=
                permsOver_sound ctx input _ _ _ _ _ hperm
              match hoover : optimizeOver ctx cfg clock input otherPerms t1 with
              | .error er =>
                simp only [hoover] at hrun
                cases hrun
              | .ok (optimized0, t2v, log3) =>
                simp only [hoover] at hrun
                have hoptoU : ∀ p ∈ optimized0, unique ctx input p = .ok true :=
                  optimizeOver_sound ctx cfg clock input _ _ _ _ _ hoover hpermU
                match hsorted : sortPaths (optimized0 ++
                    [headPath (sortPaths (headPath (sortPaths foundPaths) :: optYs))]) with
                | o :: os =>
                  simp only [hsorted] at hrun
                  cases hrun
                  refine ⟨o, ?_, rfl⟩
                  have hmem : o ∈ sortPaths (optimized0 ++
                      [headPath (sortPaths (headPath (sortPaths foundPaths) :: optYs))]) := by
                    rw [hsorted]
                    exact List.mem_cons_self _ _
                  rcases List.mem_append.mp (mem_sortPaths.mp hmem) with hmo | hmo
                  · exact hoptoU o hmo
                  · rcases List.mem_singleton.mp hmo with rfl
                    exact hfoU
                | [] =>
                  simp only [hsorted] at hrun
                  cases hrun
                  exact ⟨_, hfirstU, rfl⟩
          · rw [if_neg hlen] at hrun
            match hsorted : sortPaths (headPath (sortPaths foundPaths) :: optYs) with
            | o :: os =>
              simp only [hsorted] at hrun
              cases hrun
              refine ⟨o, ?_, rfl⟩
              have hmem : o ∈ sortPaths (headPath (sortPaths foundPaths) :: optYs) := by
                rw [hsorted]
                exact List.mem_cons_self _ _
              exact hinitU o hmem
            | [] =>
              simp only [hsorted] at hrun
              cases hrun
              exact ⟨_, hfirstU, rfl⟩

/-- Claim C1: for every duplicate-free target list whose elements are not all
the document root tag (in particular, for every single target under the
configured root and every non-empty list of such targets), whenever `finder`
returns normally, querying the configured root scope with the returned
selector string yields exactly the target set — a permutation of the input
list, no more and no fewer. -/
theorem claim1_finder_postcondition (ctx : Ctx) (cfg : Options) (clock : Nat → Nat)
    (input : List El) (s : String) (t : Nat) (lg : List OracleCall)
    (hnd : input.Nodup)
    (hh : input.all (fun e => lowerStr e.data.tag == "html") = false)
    (hrun : finder ctx cfg clock input = .ok (s, t, lg)) :
    (ctx.queryAll s).Perm input := by
  obtain ⟨p, hu, rfl⟩ := finder_sound ctx cfg clock input s t lg hh hrun
  obtain ⟨hne, hlen, hsub⟩ := unique_ok_true_iff.mp hu
  have hsp : input.Subperm (ctx.queryAll (selector p)) :=
    List.subperm_of_subset hnd (fun e he => hsub e he)
  exact (hsp.perm_of_length_le (by omega)).symm

/-- Witness for claim C1: a complete concrete run. The driver returns the
selector `#app` for the single target `wElB`, and querying the scope with it
returns exactly `[wElB]`. -/
theorem claim1_witness : (cxApp.queryAll "#app").Perm [wElB] := by
  have hrun : finder cxApp defaults (fun _ => 0) [wElB] =
      .ok ("#app", 1, [⟨.top, "#app", some 0, some 0⟩]) := by
    simp only [finder]
    rw [show search cxApp defaults [wElB] =
      [[{ name := "#app", penalty := 0, level := some 0 }]] ++
        (search cxApp defaults [wElB]).tail from by decide]
    rw [show consume cxApp defaults (fun _ => 0) [wElB]
        ([[{ name := "#app", penalty := 0, level := some 0 }]] ++
          (search cxApp defaults [wElB]).tail) [] 0 0 =
      .ok (.proceed [[{ name := "#app", penalty := 0, level := some 0 }]], 1,
        [⟨.top, "#app", some 0, some 0⟩]) from by decide]
    simp only []
    rw [show optimize cxApp defaults (fun _ => 0) [wElB]
        (headPath (sortPaths [[{ name := "#app", penalty := 0, level := some 0 }]])) 1 =
      .ok ([], 1, []) from by
        rw [optimize, optimizeGo, dif_neg (by decide)]]
    decide
  exact claim1_finder_postcondition cxApp defaults (fun _ => 0) [wElB] "#app" 1
    [⟨.top, "#app", some 0, some 0⟩] (by decide) (by decide) hrun

/-! Claim C2. -/

/-- Claim C2: the uniqueness oracle raises the no-match error exactly when the
rendered selector of the path matches zero nodes in the scope (zero matches are
never treated as a boolean answer), and on a nonempty match set it returns
`true` if and only if the match set's size equals the target count and every
target element is contained in the match set. -/
theorem claim2_unique_oracle (ctx : Ctx) (ts : List El) (p : Path) :
    (unique ctx ts p = .error (.noMatch (selector p)) ↔ ctx.queryAll (selector p) = []) ∧
    (∀ er, unique ctx ts p = .error er → er = .noMatch (selector p)) ∧
    (ctx.queryAll (selector p) ≠ [] →
      (unique ctx ts p = .ok true ↔
        ((ctx.queryAll (selector p)).length = ts.length ∧
          ∀ e ∈ ts, e ∈ ctx.queryAll (selector p)))) := by
  refine ⟨?_, ?_, ?_⟩
  · rw [unique_error_iff]
    simp
  · intro er h
    exact (unique_error_iff.mp h).2
  · intro hne
    rw [unique_ok_true_iff]
    constructor
    · intro ⟨_, h1, h2⟩
      exact ⟨h1, h2⟩
    · intro ⟨h1, h2⟩
      exact ⟨hne, h1, h2⟩

/-- Witness for claim C2 at a concrete scope, target list and path. -/
theorem claim2_witness :
    wCtx.queryAll (selector [{ name := "div", penalty := 5 }]) ≠ [] ∧
      unique wCtx [wEl] [{ name := "div", penalty := 5 }] = .ok true := by
  refine ⟨by decide, ?_⟩
  exact ((claim2_unique_oracle wCtx [wEl] [{ name := "div", penalty := 5 }]).2.2
    (by decide)).mpr (by decide)

/-! Claim C3. -/

/-- Counterexample to claim C3: two paths with equal score where the second has
fewer fragments. A comparator ranking the shorter path first would have to
return a positive value on this pair; `byPenalty` returns 0, leaving the stable
sort to keep whatever order the paths already had. -/
theorem claim3_counterexample :
    penalty [{ name := "x", penalty := 5 }, { name := "y", penalty := 0 }] =
        penalty [{ name := "z", penalty := 5 }] ∧
      ([{ name := "z", penalty := 5 }] : Path).length <
        ([{ name := "x", penalty := 5 }, { name := "y", penalty := 0 }] : Path).length ∧
      byPenalty [{ name := "x", penalty := 5 }, { name := "y", penalty := 0 }]
        [{ name := "z", penalty := 5 }] = 0 := by
  decide

/-- Claim C3 as amended: `byPenalty` ranks `a` before `b` exactly when `a` has
the strictly lower score, ranks `b` before `a` exactly when `b` has the
strictly lower score, and compares equal scores as equal, so score ties are
resolved only by the stable order of the surrounding sort, not by path
length. -/
theorem claim3_byPenalty_orders_by_score (a b : Path) :
    (penalty a < penalty b → byPenalty a b < 0) ∧
    (penalty a = penalty b → byPenalty a b = 0) ∧
    (penalty b < penalty a → 0 < byPenalty a b) := by
  unfold byPenalty
  omega

/-- Witness for claim C3's amended statement on concrete paths of scores 0
and 5. -/
theorem claim3_witness :
    byPenalty [{ name := "a", penalty := 0 }] [{ name := "b", penalty := 5 }] < 0 :=
  (claim3_byPenalty_orders_by_score
    [{ name := "a", penalty := 0 }] [{ name := "b", penalty := 5 }]).1 (by decide)

/-! Claim C7. -/

theorem selectorGo_eq_claim (rest : Path) :
    ∀ (node : Knot) (q : String) (l : Int), node.level = some l →
      (∀ k ∈ rest, k.level.isSome) →
      selectorGo node q rest = selectorClaimGo l q rest := by
  induction rest with
  | nil => intro node q l _ _; rfl
  | cons k rs ih =>
    intro node q l hn hall
    obtain ⟨m, hm⟩ := Option.isSome_iff_exists.mp (hall k (by simp))
    have hgd : k.level.getD 0 = m := by simp [hm]
    simp only [selectorGo, selectorClaimGo]
    have hcond : (node.level = some (k.level.getD 0 - 1)) ↔ (k.level.getD 0 = l + 1) := by
      rw [hn]
      constructor
      · intro h
        have := Option.some.inj h
        omega
      · intro h
        rw [h]
        congr 1
        omega
    have htail : ∀ k2 ∈ rs, k2.level.isSome := fun k2 hk2 => hall k2 (by simp [hk2])
    by_cases hc : k.level.getD 0 = l + 1
    · rw [if_pos (hcond.mpr hc), if_pos hc]
      exact ih k _ (k.level.getD 0) (by rw [hgd]; exact hm) htail
    · rw [if_neg (fun hh => hc (hcond.mp hh)), if_neg hc]
      exact ih k _ (k.level.getD 0) (by rw [hgd]; exact hm) htail

/-- Claim C7: on every path all of whose fragments carry a defined level, the
renderer folds from fragment 0's text outward, prepending each subsequent
fragment with the child combinator exactly when its level is one greater than
the previous fragment's level, and with the whitespace descendant combinator
otherwise (formalized as agreement with the claim-side renderer
`selectorClaim`). -/
theorem claim7_renderer (p : Path) (hl : ∀ k ∈ p, k.level.isSome) :
    selector p = selectorClaim p := by
  cases p with
  | nil => rfl
  | cons k rest =>
    simp only [selector, selectorClaim]
    have hk := hl k (by simp)
    obtain ⟨l, hkl⟩ := Option.isSome_iff_exists.mp hk
    have : k.level.getD 0 = l := by simp [hkl]
    rw [this]
    exact selectorGo_eq_claim rest k k.name l hkl (fun k2 hk2 => hl k2 (by simp [hk2]))

/-- Witness for claim C7 on a concrete path with an ancestor-level gap: the
adjacent pair uses the child combinator and the gap uses the descendant
combinator, identically in the source renderer and the claim-side renderer. -/
theorem claim7_witness :
    (∀ k ∈ ([{ name := "a", penalty := 0, level := some 0 },
        { name := "b", penalty := 0, level := some 1 },
        { name := "c", penalty := 0, level := some 3 }] : Path), k.level.isSome) ∧
      selector [{ name := "a", penalty := 0, level := some 0 },
        { name := "b", penalty := 0, level := some 1 },
        { name := "c", penalty := 0, level := some 3 }] =
      selectorClaim [{ name := "a", penalty := 0, level := some 0 },
        { name := "b", penalty := 0, level := some 1 },
        { name := "c", penalty := 0, level := some 3 }] :=
  ⟨by decide, claim7_renderer _ (by decide)⟩

/-! Claim C8. -/

/-- Counterexample to claim C8: the name `data-xy1` begins with `data-` and the
value `menu` is word-like and short, so the claim's predicate accepts the pair,
but the source `attr` rejects it because a `data-` name must itself be
word-like and `data-xy1` contains a digit. -/
theorem claim8_counterexample :
    attrClaimed "data-xy1" "menu" = true ∧ attr "data-xy1" "menu" = false := by
  decide

/-- Claim C8 as amended: the default attribute predicate accepts a name/value
pair if and only if the name is in the closed allow-list or begins with
`data-` and is itself word-like, and the value is word-like and under 100
characters or begins with `#` with a word-like remainder. -/
theorem claim8_attr_accepts_iff (n v : String) :
    attr n v = true ↔
      ((n ∈ acceptedAttrNames ∨ (startsData n = true ∧ wordLike n = true)) ∧
        ((wordLike v = true ∧ v.data.length < 100) ∨
          (startsHash v = true ∧ wordLike ⟨v.data.drop 1⟩ = true))) := by
  simp only [attr, Bool.and_eq_true, Bool.or_eq_true, List.contains, List.elem_iff,
    decide_eq_true_eq]

/-- Witness for claim C8's amended statement: `role` with a word-like value is
accepted. -/
theorem claim8_witness : attr "role" "menu" = true :=
  (claim8_attr_accepts_iff "role" "menu").mpr (by decide)

/-! Claim C10. -/

/-- Claim C10: called on an empty target list, `finder` fails neither budget
check, treats the all-targets-are-root test as vacuously satisfied, and
immediately returns the literal string `html` having read no clock and
consulted no oracle (the returned read index and call log are zero and
empty). -/
theorem claim10_empty_input (ctx : Ctx) (cfg : Options) (clock : Nat → Nat) :
    finder ctx cfg clock [] = .ok ("html", 0, []) := by
  simp [finder]

end Finder
